import Mathlib

/-!
Verification development for the undoable row-mutation model and background
task lifecycle of `src/nomoc.cpp`.

The embedding covers:
* `DataModel` (the Row Store): an ordered sequence of records, each a list of
  string fields; `insertRowData`, `removeLastRow` and the bounds-checked read
  `data`, together with the structural-change notifications the model emits
  (`beginInsertRows`/`endInsertRows`, `beginRemoveRows`/`endRemoveRows`).
* `AddRowCommand`: the one undo command, holding the record it (re)inserts.
* The Undo Controller (`QUndoStack`): toolkit code not present in the
  repository source, modelled from the spec (§4.2).
* `Worker::run`: the cancellable progress loop, modelled as a function of the
  values the atomic `stop` flag shows at each loop-condition check.
-/

namespace Nomoc

/-- Structural-change notifications emitted by the table model: `rowsInserted a b`
stands for the `beginInsertRows({}, a, b)` / `endInsertRows()` pair, and
`rowsRemoved a b` for `beginRemoveRows({}, a, b)` / `endRemoveRows()`. -/
inductive ModelNotif where
  | rowsInserted (first last : Nat) : ModelNotif
  | rowsRemoved (first last : Nat) : ModelNotif
deriving DecidableEq, Repr

/-- `DataModel::rowCount`: the number of rows (`rows.size()`). -/
def DataModel.rowCount (rows : List (List String)) : Nat :=
  rows.length

/-- `DataModel::columnCount`: always 3. -/
def DataModel.columnCount : Nat :=
  3

/-- `Qt::DisplayRole` is the integer 0. -/
def displayRole : Int := 0

/-- `DataModel::data`: a `QModelIndex` is valid iff its row and column are both
nonnegative (and it belongs to a model); the code returns an empty `QVariant`
(here `none`) when the index is invalid or the role is not `Qt::DisplayRole`,
then when the row is past the row count or the column past the field count of
that row, and otherwise returns the stored field. The C++ `||` short-circuits,
so `rows[i.row()]` is only reached with the row in range; `getD` makes the
Lean term total with the same results. -/
def DataModel.data (rows : List (List String)) (row col : Int) (role : Int) :
    Option String :=
  if ¬(0 ≤ row ∧ 0 ≤ col) ∨ role ≠ displayRole then none
  else if (rows.length : Int) ≤ row ∨ ((rows.getD row.toNat []).length : Int) ≤ col then none
  else some ((rows.getD row.toNat []).getD col.toNat "")

/-- `DataModel::insertRowData`: append the record at the end and emit the
rows-inserted notification for the new index (`beginInsertRows({}, size, size)`).
Returns the new row list and the notifications emitted. -/
def DataModel.insertRowData (rows : List (List String)) (r : List String) :
    List (List String) × List ModelNotif :=
  (rows ++ [r], [ModelNotif.rowsInserted rows.length rows.length])

/-- `DataModel::removeLastRow`: on an empty store return `false` with no
notification; otherwise remove the final element, emit the rows-removed
notification for the removed last index, and return `true`. Result is
(new rows, returned Bool, notifications emitted). -/
def DataModel.removeLastRow (rows : List (List String)) :
    List (List String) × Bool × List ModelNotif :=
  if rows.isEmpty then (rows, false, [])
  else (rows.dropLast, true,
    [ModelNotif.rowsRemoved (rows.length - 1) (rows.length - 1)])

/-- `AddRowCommand`: holds the record it (re)inserts. -/
structure AddRowCommand where
  row : List String
deriving DecidableEq, Repr

/-- `AddRowCommand::redo`: `model->insertRowData(row)`. -/
def AddRowCommand.redo (c : AddRowCommand) (rows : List (List String)) :
    List (List String) × List ModelNotif :=
  DataModel.insertRowData rows c.row

/-- `AddRowCommand::undo`: `model->removeLastRow();` — the Bool result of
`removeLastRow` is discarded (the C++ statement ignores the return value),
so the command's undo reports no error: only the new rows and the
notifications remain. -/
def AddRowCommand.undo (c : AddRowCommand) (rows : List (List String)) :
    List (List String) × List ModelNotif :=
  ((DataModel.removeLastRow rows).1, (DataModel.removeLastRow rows).2.2)

/-- Modelled from the spec: the Undo Controller is `QUndoStack`, toolkit code
not present in the repository source (the source only constructs it and calls
`push`, `undo`, `redo` through the Edit-menu actions). Per §4.2 the controller
state is an ordered sequence of operations plus a cursor in `[0, length]`;
here the operations are the `AddRowCommand`s acting on the Row Store rows,
which we carry alongside. -/
structure UndoStackState where
  rows : List (List String)
  history : List AddRowCommand
  cursor : Nat
deriving DecidableEq, Repr

/-- Modelled from the spec (§4.2): `push(op)` executes `op.redo()`, discards
any ops after the cursor (redo tail lost permanently), appends `op`, and
advances the cursor past it. -/
def UndoStack.push (s : UndoStackState) (c : AddRowCommand) : UndoStackState :=
  { rows := (AddRowCommand.redo c s.rows).1
    history := s.history.take s.cursor ++ [c]
    cursor := s.cursor + 1 }

/-- Modelled from the spec (§4.2): `undo()` is a no-op if the cursor is 0;
otherwise it invokes `op.undo()` at cursor-1 and decrements the cursor. -/
def UndoStack.undo (s : UndoStackState) : UndoStackState :=
  if s.cursor = 0 then s
  else { s with
    rows := (AddRowCommand.undo (s.history.getD (s.cursor - 1) ⟨[]⟩) s.rows).1
    cursor := s.cursor - 1 }

/-- Modelled from the spec (§4.2): `redo()` is a no-op if the cursor equals the
history length; otherwise it invokes `op.redo()` at the cursor and increments
the cursor. -/
def UndoStack.redo (s : UndoStackState) : UndoStackState :=
  if h : s.cursor < s.history.length then
    { s with
      rows := (AddRowCommand.redo (s.history.get ⟨s.cursor, h⟩) s.rows).1
      cursor := s.cursor + 1 }
  else s

/-- A call made through the Undo Controller: `push` of an `AddRowCommand`
carrying a record, or `undo()` / `redo()`. -/
inductive UCall where
  | push (row : List String) : UCall
  | undo : UCall
  | redo : UCall
deriving DecidableEq, Repr

/-- One controller call applied to a state. -/
def UndoStack.step (s : UndoStackState) : UCall → UndoStackState
  | UCall.push r => UndoStack.push s ⟨r⟩
  | UCall.undo => UndoStack.undo s
  | UCall.redo => UndoStack.redo s

/-- The initially empty Row Store with an empty controller history. -/
def UndoStack.initState : UndoStackState :=
  { rows := [], history := [], cursor := 0 }

/-- Run a sequence of controller calls from the initially empty state. -/
def UndoStack.runCalls (calls : List UCall) : UndoStackState :=
  calls.foldl UndoStack.step UndoStack.initState

/-- Follows the spec's words (§8): the contents produced by "directly applying
only the effective operations (those reachable by walking the undo history
forward from empty through the final cursor position)". -/
def effectiveReplay (s : UndoStackState) : List (List String) :=
  (s.history.take s.cursor).foldl (fun rows c => (AddRowCommand.redo c rows).1) []

/-- The controller-level invariant used in the proofs: the Row Store rows are
exactly the records of the history entries before the cursor, and the cursor
stays within `[0, length]`. -/
def StackInv (s : UndoStackState) : Prop :=
  s.rows = (s.history.take s.cursor).map AddRowCommand.row ∧
    s.cursor ≤ s.history.length

/-- The Add Row button action: push an `AddRowCommand` whose record is
`{QString::number(model.rowCount({})), "Item", QTime::currentTime().toString()}`;
the arguments are evaluated before the push executes, so the ID field is the
decimal string of the row count at the moment of the action. The current
time is a parameter. -/
def addRowAction (s : UndoStackState) (time : String) : UndoStackState :=
  UndoStack.push s ⟨[Nat.repr (DataModel.rowCount s.rows), "Item", time]⟩

/-- A user action on the main window that touches the Row Store: the Add Row
button (with the wall-clock time it observed), or the Edit-menu Undo/Redo
actions. -/
inductive ACall where
  | add (time : String) : ACall
  | undo : ACall
  | redo : ACall
deriving DecidableEq, Repr

/-- One user action applied to a state. -/
def appStep (s : UndoStackState) : ACall → UndoStackState
  | ACall.add t => addRowAction s t
  | ACall.undo => UndoStack.undo s
  | ACall.redo => UndoStack.redo s

/-- Run a sequence of user actions from the initially empty state. -/
def runApp (calls : List ACall) : UndoStackState :=
  calls.foldl appStep UndoStack.initState

/-- The ID fields of the Row Store records (first field of each record). -/
def idsOf (s : UndoStackState) : List (Option String) :=
  s.rows.map List.head?

/-- A concrete controller state with one undone operation (cursor 0, one
history entry): used to instantiate theorems with hypotheses. -/
def sampleState : UndoStackState :=
  { rows := [], history := [{ row := ["0", "Item", "t0"] }], cursor := 0 }

/-- A concrete command, used to instantiate theorems with hypotheses. -/
def sampleCmd : AddRowCommand :=
  { row := ["1", "Item", "t1"] }

/-- Events emitted by a Task Run (`Worker`): the `progress(int)` signal and
the `finished()` signal. -/
inductive WEvent where
  | progress (value : Nat) : WEvent
  | finished : WEvent
deriving DecidableEq, Repr

/-- The loop of `Worker::run`: `for (int i=0;i<=100 && !stop;i++) {
QThread::msleep(50); emit progress(i); }`. The atomic `stop` flag is read once
per loop-condition check; `stopFlag i` is the value that read returns at the
check of iteration `i` (the flag starts false and `cancel()` only ever sets
it true). `fuel` is the remaining iteration bound, `101 - i` at entry, so the
structural recursion never cuts the loop short: the condition `i ≤ 100` fails
first. -/
def Worker.runLoop (stopFlag : Nat → Bool) : Nat → Nat → List WEvent
  | 0, _ => []
  | fuel + 1, i =>
    if i ≤ 100 ∧ stopFlag i = false then
      WEvent.progress i :: Worker.runLoop stopFlag fuel (i + 1)
    else []

/-- `Worker::run`: run the loop from `i = 0`, then `emit finished()`. -/
def Worker.run (stopFlag : Nat → Bool) : List WEvent :=
  Worker.runLoop stopFlag 101 0 ++ [WEvent.finished]

/-- The value carried by a progress event, if any. -/
def WEvent.progressValue : WEvent → Option Nat
  | WEvent.progress v => some v
  | WEvent.finished => none

/-- The progress values emitted by a Task Run, in emission order. -/
def Worker.progressValues (stopFlag : Nat → Bool) : List Nat :=
  (Worker.run stopFlag).filterMap WEvent.progressValue

/-- The stop-flag read sequence produced by a `cancel()` whose write becomes
visible between the checks of iterations `c - 1` and `c`: reads before check
`c` return false, reads from check `c` on return true. -/
def stopAfter (c : Nat) : Nat → Bool :=
  fun j => decide (c ≤ j)

/-- The stronger invariant for runs of the user actions: the controller
invariant, plus: every history entry's ID field (head of its record) is the
decimal string of its position in the history. -/
def AppInv (s : UndoStackState) : Prop :=
  StackInv s ∧
    ∀ j, j < s.history.length →
      (s.history.getD j ⟨[]⟩).row.head? = some (Nat.repr j)

lemma AddRowCommand.redo_fst (c : AddRowCommand) (rows : List (List String)) :
    (AddRowCommand.redo c rows).1 = rows ++ [c.row] := rfl

lemma AddRowCommand.undo_fst (c : AddRowCommand) (rows : List (List String)) :
    (AddRowCommand.undo c rows).1 = rows.dropLast := by
  cases rows with
  | nil => rfl
  | cons a l => rfl

lemma stackInv_init : StackInv UndoStack.initState := by
  unfold StackInv UndoStack.initState
  simp

lemma stackInv_push (s : UndoStackState) (c : AddRowCommand) (h : StackInv s) :
    StackInv (UndoStack.push s c) := by
  unfold StackInv at h ⊢
  obtain ⟨hrows, hle⟩ := h
  have hlen : (s.history.take s.cursor ++ [c]).length = s.cursor + 1 := by
    simp [Nat.min_eq_left hle]
  unfold UndoStack.push
  refine ⟨?_, ?_⟩
  · simp only
    rw [AddRowCommand.redo_fst, List.take_of_length_le (le_of_eq hlen),
      List.map_append, ← hrows]
    rfl
  · simp only
    rw [hlen]

lemma stackInv_undo (s : UndoStackState) (h : StackInv s) :
    StackInv (UndoStack.undo s) := by
  unfold StackInv at h ⊢
  obtain ⟨hrows, hle⟩ := h
  unfold UndoStack.undo
  by_cases h0 : s.cursor = 0
  · rw [if_pos h0]
    exact ⟨hrows, hle⟩
  · rw [if_neg h0]
    obtain ⟨k, hk⟩ : ∃ k, s.cursor = k + 1 := ⟨s.cursor - 1, by omega⟩
    have hk2 : k < s.history.length := by omega
    refine ⟨?_, by simp only; omega⟩
    simp only
    rw [AddRowCommand.undo_fst, hrows, hk, Nat.add_sub_cancel,
      List.map_take, List.map_take]
    have hk3 : k < (s.history.map AddRowCommand.row).length := by
      rw [List.length_map]; exact hk2
    rw [List.dropLast_eq_take, List.take_take, List.length_take]
    congr 1
    omega

lemma stackInv_redo (s : UndoStackState) (h : StackInv s) :
    StackInv (UndoStack.redo s) := by
  unfold StackInv at h ⊢
  obtain ⟨hrows, hle⟩ := h
  unfold UndoStack.redo
  by_cases hc : s.cursor < s.history.length
  · rw [dif_pos hc]
    refine ⟨?_, by simp only; omega⟩
    simp only
    rw [AddRowCommand.redo_fst, hrows, List.map_take, List.map_take]
    have hc3 : s.cursor < (s.history.map AddRowCommand.row).length := by
      rw [List.length_map]; exact hc
    rw [List.take_succ, List.getElem?_eq_getElem hc3]
    simp
  · rw [dif_neg hc]
    exact ⟨hrows, hle⟩

lemma stackInv_step (s : UndoStackState) (c : UCall) (h : StackInv s) :
    StackInv (UndoStack.step s c) := by
  cases c with
  | push r => exact stackInv_push s ⟨r⟩ h
  | undo => exact stackInv_undo s h
  | redo => exact stackInv_redo s h

lemma stackInv_runCalls (calls : List UCall) : StackInv (UndoStack.runCalls calls) := by
  suffices h : ∀ s, StackInv s → StackInv (calls.foldl UndoStack.step s) from
    h _ stackInv_init
  induction calls with
  | nil => intro s hs; exact hs
  | cons c cs ih => intro s hs; exact ih _ (stackInv_step s c hs)

lemma foldl_redo_eq (l : List AddRowCommand) (acc : List (List String)) :
    l.foldl (fun rows c => (AddRowCommand.redo c rows).1) acc =
      acc ++ l.map AddRowCommand.row := by
  induction l generalizing acc with
  | nil => simp
  | cons c cs ih =>
    rw [List.foldl_cons, ih, AddRowCommand.redo_fst]
    simp

/-- C1: starting from the initially empty Row Store, after any sequence of
`push`, `undo`, `redo` calls through the Undo Controller (the ops being
`AddRowCommand`s and the store not mutated by any other means), the Row
Store's contents equal the contents obtained by directly applying, in order,
only the effective operations: those in the history before the final cursor
position. -/
theorem undo_controller_replay_correct (calls : List UCall) :
    (UndoStack.runCalls calls).rows = effectiveReplay (UndoStack.runCalls calls) := by
  have h := stackInv_runCalls calls
  unfold StackInv at h
  rw [effectiveReplay, foldl_redo_eq, List.nil_append, h.1]

/-- C2: for every controller state and every `AddRowCommand`, `push` appends
the command's record at the end of the Row Store and an immediately following
`undo()` removes that last record, restoring exactly the pre-push contents. -/
theorem push_undo_roundtrip (s : UndoStackState) (c : AddRowCommand) :
    (UndoStack.push s c).rows = s.rows ++ [c.row] ∧
    (UndoStack.undo (UndoStack.push s c)).rows = s.rows := by
  refine ⟨AddRowCommand.redo_fst c s.rows, ?_⟩
  unfold UndoStack.undo
  rw [if_neg (by unfold UndoStack.push; simp)]
  simp only [UndoStack.push]
  rw [AddRowCommand.undo_fst, AddRowCommand.redo_fst]
  exact List.dropLast_concat

/-- C3: for every controller state with at least one undone operation,
`push(op2)` discards all operations after the cursor, executes `op2.redo()`
(appending its record to the store), appends `op2` to the history, and
advances the cursor past it; a `redo()` issued immediately after such a push
is a no-op. -/
theorem push_truncates_redo_tail (s : UndoStackState) (c : AddRowCommand)
    (h : s.cursor < s.history.length) :
    (UndoStack.push s c).history = s.history.take s.cursor ++ [c] ∧
    (UndoStack.push s c).rows = s.rows ++ [c.row] ∧
    (UndoStack.push s c).cursor = s.cursor + 1 ∧
    UndoStack.redo (UndoStack.push s c) = UndoStack.push s c := by
  refine ⟨rfl, AddRowCommand.redo_fst c s.rows, rfl, ?_⟩
  unfold UndoStack.redo
  rw [dif_neg]
  unfold UndoStack.push
  simp only [List.length_append, List.length_take, List.length_cons, List.length_nil]
  omega

/-- Witness for C3 at a concrete controller state with one undone operation. -/
theorem push_truncates_redo_tail_witness :
    sampleState.cursor < sampleState.history.length ∧
    ((UndoStack.push sampleState sampleCmd).history =
        sampleState.history.take sampleState.cursor ++ [sampleCmd] ∧
      (UndoStack.push sampleState sampleCmd).rows = sampleState.rows ++ [sampleCmd.row] ∧
      (UndoStack.push sampleState sampleCmd).cursor = sampleState.cursor + 1 ∧
      UndoStack.redo (UndoStack.push sampleState sampleCmd) =
        UndoStack.push sampleState sampleCmd) :=
  ⟨by decide, push_truncates_redo_tail sampleState sampleCmd (by decide)⟩

/-- C7: `removeLastRow` on an empty Row Store returns false, leaves the store
unchanged and emits no structural-change notification; on a non-empty store
(any store of the form `rows ++ [r]`) it removes exactly the final element,
returns true, and emits the rows-removed notification for the removed last
index. -/
theorem removeLastRow_empty_nonempty :
    DataModel.removeLastRow [] = ([], false, []) ∧
    ∀ (rows : List (List String)) (r : List String),
      DataModel.removeLastRow (rows ++ [r]) =
        (rows, true, [ModelNotif.rowsRemoved rows.length rows.length]) := by
  refine ⟨rfl, ?_⟩
  intro rows r
  unfold DataModel.removeLastRow
  rw [if_neg (by simp)]
  simp [List.dropLast_concat]

/-- C8: `DataModel::data` at display role is a bounds-checked read: out-of-range
row or column indices (negative, row past the row count, or column past the
field count of the addressed record) yield the absent value `none`; in-range
indices yield the stored field. -/
theorem data_bounds_checked (rows : List (List String)) (row col : Int) :
    ((row < 0 ∨ col < 0 ∨ (rows.length : Int) ≤ row ∨
        ((rows.getD row.toNat []).length : Int) ≤ col) →
      DataModel.data rows row col displayRole = none) ∧
    (0 ≤ row → 0 ≤ col → row < (rows.length : Int) →
      col < ((rows.getD row.toNat []).length : Int) →
      DataModel.data rows row col displayRole =
        some ((rows.getD row.toNat []).getD col.toNat "")) := by
  constructor
  · intro hout
    unfold DataModel.data
    by_cases hval : 0 ≤ row ∧ 0 ≤ col
    · rw [if_neg (by simp [hval.1, hval.2]), if_pos]
      rcases hout with h | h | h | h
      · exact absurd hval.1 (by omega)
      · exact absurd hval.2 (by omega)
      · exact Or.inl h
      · exact Or.inr h
    · rw [if_pos (Or.inl hval)]
  · intro h1 h2 h3 h4
    unfold DataModel.data
    rw [if_neg (by push_neg; exact ⟨⟨h1, h2⟩, rfl⟩),
      if_neg (by push_neg; exact ⟨h3, h4⟩)]

/-- Witness for C8: an in-range read returns the stored field, an out-of-range
row returns `none`. -/
theorem data_bounds_checked_witness :
    DataModel.data [["a", "b", "c"]] 0 1 displayRole = some "b" ∧
    DataModel.data [["a", "b", "c"]] 1 0 displayRole = none := by
  constructor
  · exact ((data_bounds_checked [["a", "b", "c"]] 0 1).2
      (by decide) (by decide) (by decide) (by decide)).trans (by decide)
  · exact (data_bounds_checked [["a", "b", "c"]] 1 0).1 (by decide)

/-- C9: when an `AddRowCommand`'s `undo()` runs on an empty Row Store, the
failure is unreported: the `removeLastRow` call returns false but that Bool is
discarded by the command (its result type carries no error), no notification
is emitted, and the store is left unchanged. -/
theorem addRow_undo_silent_on_empty (c : AddRowCommand) :
    AddRowCommand.undo c [] = ([], []) ∧
    (DataModel.removeLastRow ([] : List (List String))).2.1 = false := by
  exact ⟨rfl, rfl⟩

lemma undo_history (s : UndoStackState) : (UndoStack.undo s).history = s.history := by
  unfold UndoStack.undo
  split <;> rfl

lemma redo_history (s : UndoStackState) : (UndoStack.redo s).history = s.history := by
  unfold UndoStack.redo
  split <;> rfl

lemma appInv_init : AppInv UndoStack.initState := by
  refine ⟨stackInv_init, ?_⟩
  intro j hj
  simp [UndoStack.initState] at hj

lemma appInv_add (s : UndoStackState) (t : String) (h : AppInv s) :
    AppInv (addRowAction s t) := by
  unfold AppInv at h ⊢
  obtain ⟨hs, hids⟩ := h
  have hsi := hs
  unfold StackInv at hsi
  obtain ⟨hrows, hle⟩ := hsi
  refine ⟨stackInv_push s _ hs, ?_⟩
  intro j hj
  have hcur : s.rows.length = s.cursor := by
    rw [hrows, List.length_map, List.length_take]
    omega
  have htlen : (s.history.take s.cursor).length = s.cursor := by
    rw [List.length_take]
    omega
  have hjlen : j < s.cursor + 1 := by
    simpa [addRowAction, UndoStack.push, htlen] using hj
  show ((s.history.take s.cursor ++
      [(⟨[Nat.repr (DataModel.rowCount s.rows), "Item", t]⟩ : AddRowCommand)]).getD
        j ⟨[]⟩).row.head? = some (Nat.repr j)
  by_cases hcase : j < s.cursor
  · have hj1 : j < (s.history.take s.cursor ++
        [(⟨[Nat.repr (DataModel.rowCount s.rows), "Item", t]⟩ : AddRowCommand)]).length := by
      simp [htlen]
      omega
    have hj2 : j < (s.history.take s.cursor).length := by omega
    rw [List.getD_eq_getElem _ _ hj1, List.getElem_append_left hj2, List.getElem_take]
    have hj3 : j < s.history.length := by omega
    rw [← List.getD_eq_getElem _ (⟨[]⟩ : AddRowCommand) hj3]
    exact hids j hj3
  · have hjc : j = s.cursor := by omega
    have hj1 : j < (s.history.take s.cursor ++
        [(⟨[Nat.repr (DataModel.rowCount s.rows), "Item", t]⟩ : AddRowCommand)]).length := by
      simp [htlen]
      omega
    rw [List.getD_eq_getElem _ _ hj1, List.getElem_append_right (by omega)]
    simp [htlen, hjc, DataModel.rowCount, hcur]

lemma appInv_undo (s : UndoStackState) (h : AppInv s) : AppInv (UndoStack.undo s) := by
  unfold AppInv at h ⊢
  obtain ⟨hs, hids⟩ := h
  refine ⟨stackInv_undo s hs, ?_⟩
  intro j hj
  rw [undo_history] at hj ⊢
  exact hids j hj

lemma appInv_redo (s : UndoStackState) (h : AppInv s) : AppInv (UndoStack.redo s) := by
  unfold AppInv at h ⊢
  obtain ⟨hs, hids⟩ := h
  refine ⟨stackInv_redo s hs, ?_⟩
  intro j hj
  rw [redo_history] at hj ⊢
  exact hids j hj

lemma appInv_step (s : UndoStackState) (c : ACall) (h : AppInv s) :
    AppInv (appStep s c) := by
  cases c with
  | add t => exact appInv_add s t h
  | undo => exact appInv_undo s h
  | redo => exact appInv_redo s h

lemma appInv_runApp (calls : List ACall) : AppInv (runApp calls) := by
  suffices h : ∀ s, AppInv s → AppInv (calls.foldl appStep s) from h _ appInv_init
  induction calls with
  | nil => intro s hs; exact hs
  | cons c cs ih => intro s hs; exact ih _ (appInv_step s c hs)

lemma ids_eq (calls : List ACall) :
    idsOf (runApp calls) =
      (List.range (runApp calls).rows.length).map (fun i => some (Nat.repr i)) := by
  obtain ⟨hs, hids⟩ := appInv_runApp calls
  have hsi := hs
  unfold StackInv at hsi
  obtain ⟨hrows, hle⟩ := hsi
  apply List.ext_getElem
  · simp [idsOf]
  · intro i h1 h2
    have hilen : i < (runApp calls).rows.length := by
      simpa [idsOf] using h1
    have hicur : i < (runApp calls).cursor := by
      rw [hrows, List.length_map, List.length_take] at hilen
      omega
    have hihist : i < (runApp calls).history.length := by omega
    have hrowsi : (runApp calls).rows[i] =
        ((runApp calls).history.getD i ⟨[]⟩).row := by
      have hi2 : i < ((runApp calls).history.take (runApp calls).cursor).length := by
        rw [List.length_take]
        omega
      have hi3 : i < (((runApp calls).history.take
          (runApp calls).cursor).map AddRowCommand.row).length := by
        rw [List.length_map]
        exact hi2
      conv_lhs => rw [List.getElem_of_eq hrows hilen]
      rw [List.getElem_map, List.getElem_take, ← List.getD_eq_getElem _ (⟨[]⟩ : AddRowCommand) hihist]
    simp only [idsOf, List.getElem_map, List.getElem_range]
    rw [hrowsi]
    exact hids i hihist

/-- C10 (amended): every record created by the Add Row user action has its ID
field equal to the decimal string of the Row Store's row count at the moment
of the action and its Name field equal to "Item"; and after every
interleaving of Add Row, undo and redo from the empty store, each record's ID
field equals the decimal string of the record's actual index (so the IDs in
the store are in fact pairwise distinct). -/
theorem addRow_ids_amended :
    (∀ (s : UndoStackState) (t : String),
        (addRowAction s t).rows =
          s.rows ++ [[Nat.repr (DataModel.rowCount s.rows), "Item", t]]) ∧
    ∀ calls : List ACall,
      idsOf (runApp calls) =
        (List.range (runApp calls).rows.length).map (fun i => some (Nat.repr i)) :=
  ⟨fun s t => AddRowCommand.redo_fst _ _, ids_eq⟩

/-- C10 counterexample: the claim that "after undo/redo interleavings the ID
field need not be unique nor equal to the record's actual index" is false — no
interleaving of the Add Row action with undo/redo yields a record whose ID
field differs from the decimal string of its index. -/
theorem addRow_ids_counterexample :
    ¬ ∃ calls : List ACall,
        idsOf (runApp calls) ≠
          (List.range (runApp calls).rows.length).map (fun i => some (Nat.repr i)) := by
  rintro ⟨calls, hne⟩
  exact hne (ids_eq calls)

lemma runLoop_spec (stopFlag : Nat → Bool) :
    ∀ fuel i, i + fuel = 101 →
      ∃ n, i ≤ n ∧ n ≤ 101 ∧
        Worker.runLoop stopFlag fuel i = (List.range' i (n - i)).map WEvent.progress ∧
        (∀ j, i ≤ j → j < n → stopFlag j = false) ∧
        (n = 101 ∨ stopFlag n = true) := by
  intro fuel
  induction fuel with
  | zero =>
    intro i hi
    refine ⟨101, by omega, le_refl 101, ?_, ?_, Or.inl rfl⟩
    · have h : i = 101 := by omega
      subst h
      simp [Worker.runLoop]
    · intro j h1 h2
      exact absurd h2 (by omega)
  | succ f ih =>
    intro i hi
    have hi100 : i ≤ 100 := by omega
    cases hval : stopFlag i with
    | false =>
      obtain ⟨n, hin, hn101, heq, hfalse, hterm⟩ := ih (i + 1) (by omega)
      refine ⟨n, by omega, hn101, ?_, ?_, hterm⟩
      · simp only [Worker.runLoop]
        rw [if_pos ⟨hi100, hval⟩, heq]
        have hni : n - i = (n - (i + 1)) + 1 := by omega
        rw [hni, List.range'_succ]
        simp
      · intro j h1 h2
        rcases Nat.eq_or_lt_of_le h1 with rfl | hlt
        · exact hval
        · exact hfalse j hlt h2
    | true =>
      refine ⟨i, le_refl i, by omega, ?_, ?_, Or.inr hval⟩
      · simp only [Worker.runLoop]
        rw [if_neg (by simp [hval])]
        simp
      · intro j h1 h2
        exact absurd h2 (by omega)

lemma worker_run_eq (stopFlag : Nat → Bool) :
    ∃ n, n ≤ 101 ∧
      Worker.run stopFlag = (List.range n).map WEvent.progress ++ [WEvent.finished] ∧
      Worker.progressValues stopFlag = List.range n ∧
      (∀ j, j < n → stopFlag j = false) ∧
      (n = 101 ∨ stopFlag n = true) := by
  obtain ⟨n, hi, h101, heq, hfalse, hterm⟩ := runLoop_spec stopFlag 101 0 rfl
  have hrange : List.range' 0 (n - 0) = List.range n := by
    rw [Nat.sub_zero, List.range_eq_range']
  have hrun : Worker.run stopFlag =
      (List.range n).map WEvent.progress ++ [WEvent.finished] := by
    unfold Worker.run
    rw [heq, hrange]
  refine ⟨n, h101, hrun, ?_, fun j hj => hfalse j (Nat.zero_le j) hj, hterm⟩
  unfold Worker.progressValues
  rw [hrun, List.filterMap_append, List.filterMap_map]
  have hcomp : WEvent.progressValue ∘ WEvent.progress = some := funext fun v => rfl
  have hfin : List.filterMap WEvent.progressValue [WEvent.finished] = [] := rfl
  rw [hcomp, List.filterMap_some, hfin, List.append_nil]

lemma filter_range_gt_len (n a : Nat) (h : n ≤ a + 2) :
    ((List.range n).filter fun v => decide (a < v)).length ≤ 1 := by
  induction n with
  | zero => simp
  | succ m ih =>
    rw [List.range_succ, List.filter_append]
    by_cases hma : a < m
    · have hnil : (List.range m).filter (fun v => decide (a < v)) = [] := by
        rw [List.filter_eq_nil_iff]
        intro v hv
        rw [List.mem_range] at hv
        simp
        omega
      rw [hnil, List.nil_append]
      simpa using List.length_filter_le (fun v => decide (a < v)) [m]
    · have hnil : [m].filter (fun v => decide (a < v)) = [] := by
        simp [hma]
      rw [hnil, List.append_nil]
      exact ih (by omega)

/-- C4: for every Task Run (every possible sequence of stop-flag reads), the
progress values emitted form `0, 1, ..., n-1` for some `n ≤ 101` — strictly
increasing with fixed step 1 starting at 0, every value in `[0,100]` — and
the loop stops only because 100 was emitted (`n = 101`) or because the
cancellation flag was observed true at the step boundary `n`. -/
theorem worker_progress_monotone_range (stopFlag : Nat → Bool) :
    ∃ n, n ≤ 101 ∧ Worker.progressValues stopFlag = List.range n ∧
      (n = 101 ∨ stopFlag n = true) := by
  obtain ⟨n, h101, _, hvals, _, hterm⟩ := worker_run_eq stopFlag
  exact ⟨n, h101, hvals, hterm⟩

/-- C5: every Task Run, whether it runs to the final progress value or observes
cancellation at any step boundary, emits exactly one `finished` notification,
and it comes after the last progress notification of the run. -/
theorem worker_unique_completion (stopFlag : Nat → Bool) :
    Worker.run stopFlag =
      (Worker.progressValues stopFlag).map WEvent.progress ++ [WEvent.finished] ∧
    (Worker.run stopFlag).count WEvent.finished = 1 := by
  obtain ⟨n, h101, hrun, hvals, _, _⟩ := worker_run_eq stopFlag
  rw [hrun, hvals]
  refine ⟨rfl, ?_⟩
  rw [List.count_append]
  have h0 : ((List.range n).map WEvent.progress).count WEvent.finished = 0 := by
    rw [List.count_eq_zero]
    intro hmem
    rw [List.mem_map] at hmem
    obtain ⟨v, _, hv⟩ := hmem
    exact WEvent.noConfusion hv
  rw [h0]
  rfl

/-- C6: if the cancellation flag is first observed true at step boundary `c`
(reads before check `c` return false, the read at check `c` returns true, as
`cancel()` only ever sets the flag), then the emitted progress values are
exactly `0..min c 101 - 1`: every emitted value is below `c`, and at most one
emitted value exceeds `c - 2`, the largest value guaranteed already observed
when the flag was set — i.e. at most one in-flight progress notification
after cancellation. -/
theorem worker_cancel_bounds (stopFlag : Nat → Bool) (c : Nat)
    (hbefore : ∀ j, j < c → stopFlag j = false) (hat : stopFlag c = true) :
    Worker.progressValues stopFlag = List.range (min c 101) ∧
    (∀ v ∈ Worker.progressValues stopFlag, v < c) ∧
    ((Worker.progressValues stopFlag).filter fun v => decide (c - 2 < v)).length ≤ 1 := by
  obtain ⟨n, h101, hrun, hvals, hfalse, hterm⟩ := worker_run_eq stopFlag
  have hnc : n = min c 101 := by
    rcases hterm with h | h
    · rcases Nat.lt_or_ge c 101 with hc | hc
      · have hcf := hfalse c (by omega)
        rw [hcf] at hat
        exact Bool.noConfusion hat
      · omega
    · have h1 : ¬ n < c := by
        intro hlt
        rw [hbefore n hlt] at h
        exact Bool.noConfusion h
      have h2 : ¬ c < n := by
        intro hlt
        rw [hfalse c hlt] at hat
        exact Bool.noConfusion hat
      omega
  subst hnc
  refine ⟨hvals, ?_, ?_⟩
  · intro v hv
    rw [hvals, List.mem_range] at hv
    omega
  · rw [hvals]
    exact filter_range_gt_len (min c 101) (c - 2) (by omega)

/-- Witness for C6 with the flag write becoming visible between the checks of
iterations 4 and 5. -/
theorem worker_cancel_bounds_witness :
    (∀ j, j < 5 → stopAfter 5 j = false) ∧ stopAfter 5 5 = true ∧
    (Worker.progressValues (stopAfter 5) = List.range (min 5 101) ∧
      (∀ v ∈ Worker.progressValues (stopAfter 5), v < 5) ∧
      ((Worker.progressValues (stopAfter 5)).filter
          fun v => decide (5 - 2 < v)).length ≤ 1) :=
  ⟨by decide, by decide, worker_cancel_bounds (stopAfter 5) 5 (by decide) (by decide)⟩

end Nomoc
